import Mathlib

/-!
Verification of the `follow_streams` repository against its specification.

The development shallowly embeds the two engines of the repository:

* the ring-stitching code of `src/run.py` (`dist`, `Candidate`, `flatten`), and
* the streaming reachability search of `src/src/follow_streams/main.py`
  (`find_neighbors`, the coordinating loop of `reachability_filter`, and the
  seed lookup).

Coordinates are modelled over `ℚ`.  The source computes Euclidean distances
with `math.sqrt`; square root is strictly monotone, so every comparison and
equality of distances performed by the source coincides with the comparison of
squared distances, which keeps the embedding computable and exact.
-/

namespace FollowStreams

/-- `type Coord = tuple[float, float]` of `run.py`, over exact rationals. -/
abbrev Coord := ℚ × ℚ

/-- Squared Euclidean distance; `run.py`'s `dist(a, b)` is its square root. -/
def dist2 (a b : Coord) : ℚ :=
  (a.1 - b.1) ^ 2 + (a.2 - b.2) ^ 2

/-- Python's two-argument `min`: the first argument unless the second is
strictly smaller. -/
def pymin (x y : ℚ) : ℚ :=
  if x ≤ y then x else y

/-- `class Candidate` of `run.py`: a ring with its insertion index. -/
structure Candidate where
  idx : ℕ
  coords : List Coord
deriving DecidableEq

namespace Candidate

/-- `Candidate.dist`: the smaller of the distances from `a` to the ring's first
and last coordinate (squared metric; `coords[0]`/`coords[-1]` of the source are
total here via a default, and all uses are on nonempty rings). -/
def dist (c : Candidate) (a : Coord) : ℚ :=
  pymin (dist2 a (c.coords.headD (0, 0))) (dist2 a (c.coords.getLastD (0, 0)))

/-- `Candidate.get`: with no target, the coordinates as given; with a target,
the coordinates reversed exactly when the last coordinate is strictly nearer
than the first. -/
def get (c : Candidate) (a : Option Coord) : List Coord :=
  match a with
  | none => c.coords
  | some t =>
    if dist2 t (c.coords.getLastD (0, 0)) < dist2 t (c.coords.headD (0, 0)) then
      c.coords.reverse
    else
      c.coords

end Candidate

/-- A polygon part of a multipolygon: its exterior ring and its interior rings
(holes).  `flatten` only ever reads `polygon.exterior.coords`. -/
structure Polygon where
  exterior : List Coord
  interiors : List (List Coord)

/-- `mp.geoms` of a shapely multipolygon: the ordered list of its parts. -/
abbrev MultiPolygon := List Polygon

/-- The hard-coded flag at the top of `flatten` in `run.py`. -/
def DEBUG : Bool := true

/-- Python's `min(candidates.values(), key=lambda c: c.dist(target))` on a
nonempty candidate sequence: the first element attaining the minimal key
(a later element replaces the current best only when strictly smaller). -/
def selectMin (t : Coord) : Candidate → List Candidate → Candidate
  | best, [] => best
  | best, c :: cs =>
    if c.dist t < best.dist t then selectMin t c cs else selectMin t best cs

/-- The `while len(candidates) > 0` loop of `flatten`'s `else` branch: extend
the path with the closest remaining candidate (oriented by `Candidate.get`)
and delete it from the candidate sequence.  Fuel equals the candidate count,
so the loop runs to completion. -/
def stitchLoop : ℕ → List Coord → List Candidate → List Coord
  | _, acc, [] => acc
  | 0, acc, _ :: _ => acc
  | fuel + 1, acc, c :: cs =>
    let tgt := acc.getLastD (0, 0)
    let closest := selectMin tgt c cs
    stitchLoop fuel (acc ++ closest.get (some tgt))
      ((c :: cs).eraseP (fun d => d.idx == closest.idx))

/-- The `else` branch of `flatten` in `run.py`: greedy nearest-endpoint
stitching.  Candidates are the exterior rings indexed in input order;
`candidates.pop(0)` starts the path with ring `0` as given. -/
def flattenGreedy (mp : MultiPolygon) : List Coord :=
  match (mp.map Polygon.exterior).enum.map (fun p => Candidate.mk p.1 p.2) with
  | [] => []
  | start :: rest => stitchLoop rest.length (start.get none) rest

/-- `flatten` of `run.py`.  `DEBUG` is `True` in the source, so the executed
path concatenates the exterior rings in input order; the greedy branch is
`flattenGreedy`.  The result is the `result` list of coordinate pairs (the
final `shapely.Polygon(result)` construction belongs to the external geometry
library). -/
def flatten (mp : MultiPolygon) : List Coord :=
  if DEBUG then (mp.map Polygon.exterior).flatten else flattenGreedy mp

/-- A three-ring multipolygon: collinear two-point rings at x = 0, x = 20 and
x = 10 (input order), exercising the nearest-endpoint ordering. -/
def exMP : MultiPolygon :=
  [⟨[(0, 0), (1, 0)], []⟩, ⟨[(20, 0), (21, 0)], []⟩, ⟨[(10, 0), (11, 0)], []⟩]

/-!
Embedding of the streaming reachability search of
`src/src/follow_streams/main.py`.

Feature records are identified by their dataframe index, modelled as `ℕ`; the
adjacency relation computed on demand by `find_neighbors` (the indices whose
geometry intersects the popped node's geometry) is abstracted as a function
`nbrs : ℕ → List ℕ`.  The coordinator state consists of the shared frontier
queue `g_frontier`, the `reached` set and the `in_prog_futures` set of
outstanding neighbor-computation tasks.
-/

/-- The mutable state of the coordinating loop of `reachability_filter`:
`g_frontier` (a multiset queue of feature indices), `reached` (a set of
indices) and `in_prog_futures` (outstanding tasks, recorded by the index each
task expands). -/
structure SearchState where
  frontier : List ℕ
  reached : Finset ℕ
  inflight : List ℕ
deriving DecidableEq

/-- The guard of the coordinating loop:
`while g_frontier.qsize() > 0 or len(in_prog_futures) > 0`. -/
def loopCond (s : SearchState) : Bool :=
  decide (0 < s.frontier.length) || decide (0 < s.inflight.length)

/-- One scheduler action of the streaming search.  The pop order of the shared
queue and the completion order of worker tasks are nondeterministic, so a step
pops an arbitrary frontier element (skipping it when already reached,
otherwise marking it reached and submitting its expansion task) or completes
an arbitrary outstanding task (appending the node's neighbors to the
frontier). -/
inductive Step (nbrs : ℕ → List ℕ) : SearchState → SearchState → Prop
  | popSkip (s : SearchState) (n : ℕ) (hf : n ∈ s.frontier) (hr : n ∈ s.reached) :
      Step nbrs s ⟨s.frontier.erase n, s.reached, s.inflight⟩
  | popExpand (s : SearchState) (n : ℕ) (hf : n ∈ s.frontier) (hr : n ∉ s.reached) :
      Step nbrs s ⟨s.frontier.erase n, insert n s.reached, n :: s.inflight⟩
  | complete (s : SearchState) (n : ℕ) (hi : n ∈ s.inflight) :
      Step nbrs s ⟨s.frontier ++ nbrs n, s.reached, s.inflight.erase n⟩

/-- Zero or more scheduler actions. -/
abbrev Steps (nbrs : ℕ → List ℕ) : SearchState → SearchState → Prop :=
  Relation.ReflTransGen (Step nbrs)

/-- The state entering the loop: the seeds are on the frontier
(`g_frontier.put_nowait(puget_sound_idx)`), nothing is reached, no task is
outstanding. -/
def initState (seeds : List ℕ) : SearchState :=
  ⟨seeds, ∅, []⟩

/-- Graph-theoretic reachability from the seed set along `nbrs`. -/
inductive Reachable (nbrs : ℕ → List ℕ) (seeds : List ℕ) : ℕ → Prop
  | seed {n : ℕ} : n ∈ seeds → Reachable nbrs seeds n
  | step {m n : ℕ} : Reachable nbrs seeds m → n ∈ nbrs m → Reachable nbrs seeds n

/-- Invariant of the search loop: tasks are only outstanding for reached
nodes; every frontier, reached or seed node is accounted for; every reached
node either still has its expansion task outstanding or has all its neighbors
in `reached` or on the frontier. -/
def Inv (nbrs : ℕ → List ℕ) (seeds : List ℕ) (s : SearchState) : Prop :=
  (∀ n ∈ s.inflight, n ∈ s.reached) ∧
  (∀ n ∈ s.frontier, Reachable nbrs seeds n) ∧
  (∀ n ∈ s.reached, Reachable nbrs seeds n) ∧
  (∀ n ∈ s.reached, n ∈ s.inflight ∨ ∀ m ∈ nbrs n, m ∈ s.reached ∨ m ∈ s.frontier) ∧
  (∀ n ∈ seeds, n ∈ s.reached ∨ n ∈ s.frontier)

/-- A feature row as consumed by the seed lookup: its dataframe index and its
`name` attribute. -/
structure Feature where
  idx : ℕ
  name : String

/-- `gdf[gdf["name"] == "Puget Sound"].index[0]`: the index of the first row
whose name matches; `none` models the fatal `IndexError` raised when no row
matches. -/
def seedLookup (features : List Feature) (target : String) : Option ℕ :=
  ((features.filter (fun f => f.name == target)).head?).map Feature.idx

/-- `find_neighbors` with a fallible intersection predicate
(`pred i start = none` models the geometry library raising on the pair
`(i, start)`): the vectorized `intersects` call evaluates every pair, so any
raise aborts the whole call; otherwise the matching indices are returned. -/
def find_neighbors (pred : ℕ → ℕ → Option Bool) (univ : List ℕ) (start : ℕ) :
    Except String (List ℕ) :=
  match univ.mapM (fun i => pred i start) with
  | none => Except.error "intersection predicate raised"
  | some bs => Except.ok (((univ.zip bs).filter (fun p => p.2)).map (fun p => p.1))

/-- The coordinator loop with the fallible predicate, sequentialized: pop a
node, skip it if reached, otherwise expand it; a worker exception is
re-raised by the coordinator (`f.result()  # raise exceptions`), aborting the
whole search.  Fuel only bounds the iteration count. -/
def searchE (pred : ℕ → ℕ → Option Bool) (univ : List ℕ) :
    ℕ → List ℕ → Finset ℕ → Except String (Finset ℕ)
  | 0, _, _ => Except.error "out of fuel"
  | _ + 1, [], reached => Except.ok reached
  | fuel + 1, n :: rest, reached =>
    if n ∈ reached then searchE pred univ fuel rest reached
    else
      match find_neighbors pred univ n with
      | Except.error e => Except.error e
      | Except.ok ns => searchE pred univ fuel (rest ++ ns) (insert n reached)

/-- An intersection predicate over features `{0, 1}` that raises on the pair
`(1, 0)` (malformed geometry) and otherwise reports only self-intersection. -/
def badPred : ℕ → ℕ → Option Bool
  | 1, 0 => none
  | i, j => some (i == j)

/-- `exMP` with a hole added to every part (used to observe that holes are
never consumed by stitching). -/
def exMPHoled : MultiPolygon :=
  exMP.map (fun p => Polygon.mk p.exterior [[(5, 5)]])

/-- A feature store in which two distinct features carry the sought name. -/
def ambiguousStore : List Feature :=
  [⟨3, "Puget Sound"⟩, ⟨7, "Puget Sound"⟩]

/-! ## Theorems -/

/-- C1: the claim states that `flatten` stitches two-or-more-ring inputs by
the greedy nearest-endpoint algorithm.  With the hard-coded `DEBUG = True`,
`flatten` instead concatenates the exterior rings in input order: on `exMP`
(rings at x = 0, x = 20, x = 10) it emits the x = 20 ring before the x = 10
ring, while the greedy algorithm of the disabled `else` branch
(`flattenGreedy`) visits x = 10 first.  The two outputs differ, so the
executed code does not implement the claimed algorithm. -/
theorem C1_flatten_is_not_greedy :
    flatten exMP = [(0, 0), (1, 0), (20, 0), (21, 0), (10, 0), (11, 0)] ∧
    flattenGreedy exMP = [(0, 0), (1, 0), (10, 0), (11, 0), (20, 0), (21, 0)] ∧
    flatten exMP ≠ flattenGreedy exMP := by
  refine ⟨by norm_num [flatten, DEBUG, exMP], ?_, ?_⟩
  · norm_num [flattenGreedy, exMP, stitchLoop, selectMin, Candidate.get,
      Candidate.dist, dist2, pymin, List.enum, List.enumFrom, List.eraseP]
  · norm_num [flatten, DEBUG, flattenGreedy, exMP, stitchLoop, selectMin,
      Candidate.get, Candidate.dist, dist2, pymin, List.enum, List.enumFrom,
      List.eraseP]

/-- C2: for every nonempty ring list, the stitched output's coordinate count
equals the sum of the input rings' coordinate counts; `flatten` concatenates
the exterior rings, so no point is dropped and none deduplicated. -/
theorem C2_flatten_preserves_coordinate_count (mp : MultiPolygon) (_hne : mp ≠ []) :
    (flatten mp).length = (mp.map (fun p => p.exterior.length)).sum := by
  simp [flatten, DEBUG, Function.comp_def]

/-- C2 witness: the three two-point rings of `exMP` stitch to six
coordinates. -/
theorem C2_witness : (flatten exMP).length = 6 :=
  (C2_flatten_preserves_coordinate_count exMP (by simp [exMP])).trans
    (by norm_num [exMP])

/-- C8: stitching a single ring returns it unchanged — in the executed
concatenation branch and in the greedy branch alike (there the start ring is
appended via `Candidate.get None`, which applies no reversal). -/
theorem C8_single_ring_unchanged (p : Polygon) :
    flatten [p] = p.exterior ∧ flattenGreedy [p] = p.exterior := by
  constructor
  · simp [flatten, DEBUG]
  · simp [flattenGreedy, List.enum, List.enumFrom, stitchLoop, Candidate.get]

/-- C10: stitching consumes only each part's exterior ring — the output is
exactly the concatenation of the exterior rings, every output coordinate
comes from some part's exterior, and replacing the interior rings (holes) of
every part changes nothing. -/
theorem C10_interiors_never_consumed (mp : MultiPolygon) :
    flatten mp = (mp.map Polygon.exterior).flatten ∧
    (∀ c ∈ flatten mp, ∃ p ∈ mp, c ∈ p.exterior) ∧
    (∀ intr : Polygon → List (List Coord),
      flatten (mp.map (fun p => ⟨p.exterior, intr p⟩)) = flatten mp) := by
  refine ⟨by simp [flatten, DEBUG], ?_, ?_⟩
  · intro c hc
    simp only [flatten, DEBUG, if_true, List.mem_flatten, List.mem_map] at hc
    obtain ⟨l, ⟨p, hp, rfl⟩, hcl⟩ := hc
    exact ⟨p, hp, hcl⟩
  · intro intr
    simp [flatten, DEBUG, Function.comp_def]

/-- C10 witness: adding a hole to every part of `exMP` leaves the stitched
output unchanged, and the output coordinate `(0, 0)` stems from a part's
exterior ring. -/
theorem C10_witness :
    flatten exMPHoled = flatten exMP ∧
    ∃ p ∈ exMP, ((0 : ℚ), (0 : ℚ)) ∈ p.exterior :=
  ⟨(C10_interiors_never_consumed exMP).2.2 (fun _ => [[(5, 5)]]),
   (C10_interiors_never_consumed exMP).2.1 (0, 0)
     (by norm_num [flatten, DEBUG, exMP])⟩

/-- C9: the greedy selection of `flatten`'s `else` branch
(`min(candidates.values(), key=...)`, embedded as `selectMin`) picks the
candidate that appears first in the input order among those at minimal
distance: the candidate list splits around the selected candidate, every
candidate strictly before it is strictly farther from the target, and no
candidate is nearer — so equidistant ties go to the earlier candidate and the
stitched output is a function of the input ring sequence. -/
theorem C9_equidistant_tie_goes_to_first (t : Coord) (c : Candidate)
    (cs : List Candidate) :
    ∃ pre suf, c :: cs = pre ++ selectMin t c cs :: suf ∧
      (∀ d ∈ pre, (selectMin t c cs).dist t < d.dist t) ∧
      (∀ d ∈ c :: cs, (selectMin t c cs).dist t ≤ d.dist t) := by
  induction cs generalizing c with
  | nil =>
    refine ⟨[], [], by simp [selectMin], by simp, ?_⟩
    intro d hd
    simp only [List.mem_singleton] at hd
    simp [hd, selectMin]
  | cons b bs ih =>
    by_cases h : b.dist t < c.dist t
    · have hsel : selectMin t c (b :: bs) = selectMin t b bs := by
        simp [selectMin, h]
      obtain ⟨pre, suf, hdec, hpre, hmin⟩ := ih b
      refine ⟨c :: pre, suf, ?_, ?_, ?_⟩
      · rw [hsel, List.cons_append, ← hdec]
      · intro d hd
        rcases List.mem_cons.mp hd with rfl | hd
        · exact hsel ▸ lt_of_le_of_lt (hmin b (List.mem_cons_self b bs)) h
        · exact hsel ▸ hpre d hd
      · intro d hd
        rcases List.mem_cons.mp hd with rfl | hd
        · exact hsel ▸ le_of_lt (lt_of_le_of_lt (hmin b (List.mem_cons_self b bs)) h)
        · exact hsel ▸ hmin d hd
    · have hle : c.dist t ≤ b.dist t := le_of_not_lt h
      have hsel : selectMin t c (b :: bs) = selectMin t c bs := by
        simp [selectMin, h]
      obtain ⟨pre, suf, hdec, hpre, hmin⟩ := ih c
      cases pre with
      | nil =>
        have hc : selectMin t c bs = c := by
          simpa using congrArg (fun l => l.headD c) hdec.symm
        refine ⟨[], b :: bs, ?_, by simp, ?_⟩
        · simp [hsel, hc]
        · intro d hd
          rcases List.mem_cons.mp hd with rfl | hd
          · simp [hsel, hc]
          · rcases List.mem_cons.mp hd with rfl | hd
            · rw [hsel, hc]; exact hle
            · exact hsel ▸ hmin d (List.mem_cons_of_mem c hd)
      | cons p pre' =>
        have hp : p = c := by
          simpa using (congrArg (fun l => l.headD c) hdec).symm
        have hbs : bs = pre' ++ selectMin t c bs :: suf := by
          have := congrArg List.tail hdec
          simpa [hp] using this
        have hstrict_c : (selectMin t c bs).dist t < c.dist t := by
          have := hpre p (List.mem_cons_self p pre')
          rwa [hp] at this
        refine ⟨c :: b :: pre', suf, ?_, ?_, ?_⟩
        · rw [hsel]
          conv_lhs => rw [hbs]
          simp
        · intro d hd
          rcases List.mem_cons.mp hd with rfl | hd
          · exact hsel ▸ hstrict_c
          · rcases List.mem_cons.mp hd with rfl | hd
            · exact hsel ▸ lt_of_lt_of_le hstrict_c hle
            · exact hsel ▸ hpre d (hp ▸ List.mem_cons_of_mem p hd)
        · intro d hd
          rcases List.mem_cons.mp hd with rfl | hd
          · exact hsel ▸ le_of_lt hstrict_c
          · rcases List.mem_cons.mp hd with rfl | hd
            · exact hsel ▸ le_of_lt (lt_of_lt_of_le hstrict_c hle)
            · exact hsel ▸ hmin d (List.mem_cons_of_mem c hd)

/-- The loop guard is false exactly on the compound condition. -/
theorem loopCond_eq_false (s : SearchState) :
    loopCond s = false ↔ s.frontier = [] ∧ s.inflight = [] := by
  simp [loopCond, List.length_eq_zero, Nat.pos_iff_ne_zero]

/-- One scheduler action never shrinks the reached set. -/
theorem step_reached_mono {nbrs : ℕ → List ℕ} {s s2 : SearchState}
    (h : Step nbrs s s2) : s.reached ⊆ s2.reached := by
  cases h with
  | popSkip n hf hr => exact Finset.Subset.refl _
  | popExpand n hf hr => exact Finset.subset_insert _ _
  | complete n hi => exact Finset.Subset.refl _

/-- A run never shrinks the reached set. -/
theorem steps_reached_mono {nbrs : ℕ → List ℕ} {s s2 : SearchState}
    (h : Steps nbrs s s2) : s.reached ⊆ s2.reached := by
  induction h with
  | refl => exact Finset.Subset.refl _
  | tail _ hbc ih => exact ih.trans (step_reached_mono hbc)

/-- The invariant holds at the initial state. -/
theorem inv_init (nbrs : ℕ → List ℕ) (seeds : List ℕ) :
    Inv nbrs seeds (initState seeds) :=
  ⟨fun n hn => absurd hn (List.not_mem_nil n),
   fun _ hn => Reachable.seed hn,
   fun n hn => absurd hn (Finset.not_mem_empty n),
   fun n hn => absurd hn (Finset.not_mem_empty n),
   fun _ hn => Or.inr hn⟩

/-- The invariant is preserved by every scheduler action. -/
theorem inv_step {nbrs : ℕ → List ℕ} {seeds : List ℕ} {s s2 : SearchState}
    (h : Step nbrs s s2) (hinv : Inv nbrs seeds s) : Inv nbrs seeds s2 := by
  obtain ⟨h1, h2, h3, h4, h5⟩ := hinv
  cases h with
  | popSkip n hf hr =>
    refine ⟨h1, ?_, h3, ?_, ?_⟩
    · intro m hm
      exact h2 m (List.erase_subset _ _ hm)
    · intro r hrr
      rcases h4 r hrr with hin | hnb
      · exact Or.inl hin
      · refine Or.inr (fun m hm => ?_)
        rcases hnb m hm with hmr | hmf
        · exact Or.inl hmr
        · by_cases hmn : m = n
          · exact Or.inl (hmn ▸ hr)
          · exact Or.inr ((List.mem_erase_of_ne hmn).mpr hmf)
    · intro sd hsd
      rcases h5 sd hsd with hsr | hsf
      · exact Or.inl hsr
      · by_cases hsn : sd = n
        · exact Or.inl (hsn ▸ hr)
        · exact Or.inr ((List.mem_erase_of_ne hsn).mpr hsf)
  | popExpand n hf hr =>
    refine ⟨?_, ?_, ?_, ?_, ?_⟩
    · intro m hm
      rcases List.mem_cons.mp hm with rfl | hm
      · exact Finset.mem_insert_self m _
      · exact Finset.mem_insert_of_mem (h1 m hm)
    · intro m hm
      exact h2 m (List.erase_subset _ _ hm)
    · intro r hrr
      rcases Finset.mem_insert.mp hrr with rfl | hrr
      · exact h2 r hf
      · exact h3 r hrr
    · intro r hrr
      rcases Finset.mem_insert.mp hrr with rfl | hrr
      · exact Or.inl (List.mem_cons_self r _)
      · rcases h4 r hrr with hin | hnb
        · exact Or.inl (List.mem_cons_of_mem n hin)
        · refine Or.inr (fun m hm => ?_)
          rcases hnb m hm with hmr | hmf
          · exact Or.inl (Finset.mem_insert_of_mem hmr)
          · by_cases hmn : m = n
            · exact Or.inl (hmn ▸ Finset.mem_insert_self n s.reached)
            · exact Or.inr ((List.mem_erase_of_ne hmn).mpr hmf)
    · intro sd hsd
      rcases h5 sd hsd with hsr | hsf
      · exact Or.inl (Finset.mem_insert_of_mem hsr)
      · by_cases hsn : sd = n
        · exact Or.inl (hsn ▸ Finset.mem_insert_self n s.reached)
        · exact Or.inr ((List.mem_erase_of_ne hsn).mpr hsf)
  | complete n hi =>
    refine ⟨?_, ?_, h3, ?_, ?_⟩
    · intro m hm
      exact h1 m (List.erase_subset _ _ hm)
    · intro m hm
      rcases List.mem_append.mp hm with hmf | hmn
      · exact h2 m hmf
      · exact Reachable.step (h3 n (h1 n hi)) hmn
    · intro r hrr
      by_cases hrn : r = n
      · subst hrn
        exact Or.inr (fun m hm => Or.inr (List.mem_append.mpr (Or.inr hm)))
      · rcases h4 r hrr with hin | hnb
        · exact Or.inl ((List.mem_erase_of_ne hrn).mpr hin)
        · exact Or.inr (fun m hm =>
            (hnb m hm).imp id (fun hmf => List.mem_append.mpr (Or.inl hmf)))
    · intro sd hsd
      rcases h5 sd hsd with hsr | hsf
      · exact Or.inl hsr
      · exact Or.inr (List.mem_append.mpr (Or.inl hsf))

/-- The invariant is preserved by every run. -/
theorem inv_steps {nbrs : ℕ → List ℕ} {seeds : List ℕ} {s s2 : SearchState}
    (h : Steps nbrs s s2) (hinv : Inv nbrs seeds s) : Inv nbrs seeds s2 := by
  induction h with
  | refl => exact hinv
  | tail _ hbc ih => exact inv_step hbc ih

/-- At a terminated state the reached set is exactly the set of nodes
reachable from the seeds. -/
theorem reached_of_done {nbrs : ℕ → List ℕ} {seeds : List ℕ} {s : SearchState}
    (hinv : Inv nbrs seeds s) (hf : s.frontier = []) (hi : s.inflight = [])
    (n : ℕ) : n ∈ s.reached ↔ Reachable nbrs seeds n := by
  obtain ⟨h1, h2, h3, h4, h5⟩ := hinv
  constructor
  · exact h3 n
  · intro hreach
    induction hreach with
    | seed hn =>
      rcases h5 _ hn with hr | hfr
      · exact hr
      · rw [hf] at hfr
        exact absurd hfr (List.not_mem_nil _)
    | step hm hnb ih =>
      rcases h4 _ ih with hin | hnbr
      · rw [hi] at hin
        exact absurd hin (List.not_mem_nil _)
      · rcases hnbr _ hnb with hr | hfr
        · exact hr
        · rw [hf] at hfr
          exact absurd hfr (List.not_mem_nil _)

/-- C3: the streaming search stops exactly on the compound condition of the
one coordinating loop — a scheduler action exists from a state if and only if
the guard `frontier.qsize() > 0 or len(in_prog_futures) > 0` holds, and the
guard is false precisely when the frontier is empty AND no task is in flight;
in particular the search never stops on frontier-emptiness alone while a
task is outstanding. -/
theorem C3_termination_condition_is_compound (nbrs : ℕ → List ℕ)
    (s : SearchState) :
    (loopCond s = false ↔ s.frontier = [] ∧ s.inflight = []) ∧
    ((∃ s2, Step nbrs s s2) ↔ loopCond s = true) := by
  refine ⟨loopCond_eq_false s, ?_⟩
  have hiff : loopCond s = true ↔ s.frontier ≠ [] ∨ s.inflight ≠ [] := by
    simp [loopCond, List.length_pos]
  rw [hiff]
  constructor
  · rintro ⟨s2, hstep⟩
    cases hstep with
    | popSkip n hf hr => exact Or.inl (List.ne_nil_of_mem hf)
    | popExpand n hf hr => exact Or.inl (List.ne_nil_of_mem hf)
    | complete n hi => exact Or.inr (List.ne_nil_of_mem hi)
  · intro hor
    rcases hor with hfr | hin
    · obtain ⟨n, rest, hcons⟩ := List.exists_cons_of_ne_nil hfr
      have hf : n ∈ s.frontier := by
        rw [hcons]
        exact List.mem_cons_self n rest
      by_cases hr : n ∈ s.reached
      · exact ⟨_, Step.popSkip s n hf hr⟩
      · exact ⟨_, Step.popExpand s n hf hr⟩
    · obtain ⟨n, rest, hcons⟩ := List.exists_cons_of_ne_nil hin
      have hmem : n ∈ s.inflight := by
        rw [hcons]
        exact List.mem_cons_self n rest
      exact ⟨_, Step.complete s n hmem⟩

/-- C5: along any run the reached set grows monotonically, and a node already
in the reached set never has another expansion task submitted at any later
step — a later pop of it takes the skip branch — so every node is expanded at
most once even though the frontier may hold duplicate ids. -/
theorem C5_reached_monotone_no_second_expansion (nbrs : ℕ → List ℕ)
    (s t t2 : SearchState) (hrun : Steps nbrs s t) (hstep : Step nbrs t t2) :
    (s.reached ⊆ t.reached ∧ t.reached ⊆ t2.reached) ∧
    ∀ n ∈ s.reached, t2.inflight ≠ n :: t.inflight := by
  refine ⟨⟨steps_reached_mono hrun, step_reached_mono hstep⟩, ?_⟩
  intro n hn
  have hnt : n ∈ t.reached := steps_reached_mono hrun hn
  cases hstep with
  | popSkip m hf hr =>
    exact fun heq => List.cons_ne_self n t.inflight heq.symm
  | popExpand m hf hr =>
    intro heq
    have hmn : m = n := by injection heq
    exact hr (hmn ▸ hnt)
  | complete m hm =>
    intro heq
    have hlen := congrArg List.length heq
    rw [List.length_erase_of_mem hm, List.length_cons] at hlen
    have hpos : 0 < t.inflight.length :=
      List.length_pos.mpr (List.ne_nil_of_mem hm)
    omega

/-- C5 witness: from a state where node 0 is reached and on the frontier, the
pop of 0 submits no new expansion task. -/
theorem C5_witness :
    (SearchState.mk ([0].erase 0) (insert 0 ∅) []).inflight ≠
      0 :: (SearchState.mk [0] (insert 0 ∅) []).inflight :=
  (C5_reached_monotone_no_second_expansion (fun _ => [])
      ⟨[0], insert 0 ∅, []⟩ ⟨[0], insert 0 ∅, []⟩
      ⟨([0].erase 0), insert 0 ∅, []⟩
      Relation.ReflTransGen.refl
      (Step.popSkip ⟨[0], insert 0 ∅, []⟩ 0 (List.mem_cons_self 0 [])
        (Finset.mem_insert_self 0 ∅))).2
    0 (Finset.mem_insert_self 0 ∅)

/-- C4: the reached set of a terminated run is a pure function of the
adjacency function and the seeds: any two terminating runs — whatever the
frontier pop order, the task completion order, or the number of concurrently
outstanding tasks — produce the same reached set, namely the set of nodes
reachable from the seeds. -/
theorem C4_reached_set_independent_of_schedule (nbrs : ℕ → List ℕ)
    (seeds : List ℕ) (s1 s2 : SearchState)
    (h1 : Steps nbrs (initState seeds) s1) (hd1 : loopCond s1 = false)
    (h2 : Steps nbrs (initState seeds) s2) (hd2 : loopCond s2 = false) :
    s1.reached = s2.reached := by
  obtain ⟨hf1, hi1⟩ := (loopCond_eq_false s1).mp hd1
  obtain ⟨hf2, hi2⟩ := (loopCond_eq_false s2).mp hd2
  ext n
  rw [reached_of_done (inv_steps h1 (inv_init nbrs seeds)) hf1 hi1 n,
    reached_of_done (inv_steps h2 (inv_init nbrs seeds)) hf2 hi2 n]

/-- C4 witness: two complete runs from seeds `[0, 1]` on the empty adjacency
function that pop the seeds in opposite orders end with the same reached
set. -/
theorem C4_witness :
    insert 1 (insert 0 (∅ : Finset ℕ)) = insert 0 (insert 1 (∅ : Finset ℕ)) := by
  have step1a : Step (fun _ => []) (initState [0, 1]) ⟨[1], insert 0 ∅, [0]⟩ :=
    Step.popExpand (initState [0, 1]) 0 (by simp [initState]) (by simp [initState])
  have step2a : Step (fun _ => []) ⟨[1], insert 0 ∅, [0]⟩
      ⟨[], insert 1 (insert 0 ∅), [1, 0]⟩ :=
    Step.popExpand ⟨[1], insert 0 ∅, [0]⟩ 1 (by simp) (by simp)
  have step3a : Step (fun _ => []) ⟨[], insert 1 (insert 0 ∅), [1, 0]⟩
      ⟨[], insert 1 (insert 0 ∅), [0]⟩ :=
    Step.complete ⟨[], insert 1 (insert 0 ∅), [1, 0]⟩ 1 (by simp)
  have step4a : Step (fun _ => []) ⟨[], insert 1 (insert 0 ∅), [0]⟩
      ⟨[], insert 1 (insert 0 ∅), []⟩ :=
    Step.complete ⟨[], insert 1 (insert 0 ∅), [0]⟩ 0 (by simp)
  have step1b : Step (fun _ => []) (initState [0, 1]) ⟨[0], insert 1 ∅, [1]⟩ :=
    Step.popExpand (initState [0, 1]) 1 (by simp [initState]) (by simp [initState])
  have step2b : Step (fun _ => []) ⟨[0], insert 1 ∅, [1]⟩
      ⟨[], insert 0 (insert 1 ∅), [0, 1]⟩ :=
    Step.popExpand ⟨[0], insert 1 ∅, [1]⟩ 0 (by simp) (by simp)
  have step3b : Step (fun _ => []) ⟨[], insert 0 (insert 1 ∅), [0, 1]⟩
      ⟨[], insert 0 (insert 1 ∅), [1]⟩ :=
    Step.complete ⟨[], insert 0 (insert 1 ∅), [0, 1]⟩ 0 (by simp)
  have step4b : Step (fun _ => []) ⟨[], insert 0 (insert 1 ∅), [1]⟩
      ⟨[], insert 0 (insert 1 ∅), []⟩ :=
    Step.complete ⟨[], insert 0 (insert 1 ∅), [1]⟩ 1 (by simp)
  exact C4_reached_set_independent_of_schedule (fun _ => []) [0, 1]
    ⟨[], insert 1 (insert 0 ∅), []⟩ ⟨[], insert 0 (insert 1 ∅), []⟩
    (Relation.ReflTransGen.head step1a (Relation.ReflTransGen.head step2a
      (Relation.ReflTransGen.head step3a (Relation.ReflTransGen.head step4a
        Relation.ReflTransGen.refl)))) rfl
    (Relation.ReflTransGen.head step1b (Relation.ReflTransGen.head step2b
      (Relation.ReflTransGen.head step3b (Relation.ReflTransGen.head step4b
        Relation.ReflTransGen.refl)))) rfl

/-- C6 counterexample: with two features named "Puget Sound" the seed lookup
raises no "ambiguous seed" error: it silently resolves to the first match
(index 3), contradicting the claimed fatal ambiguity error. -/
theorem C6_counterexample_ambiguity_not_fatal :
    seedLookup ambiguousStore "Puget Sound" ≠ none ∧
    seedLookup ambiguousStore "Puget Sound" = some 3 := by
  have h : seedLookup ambiguousStore "Puget Sound" = some 3 := rfl
  exact ⟨by simp [h], h⟩

/-- C6 amended: a named seed lookup with zero matches is fatal (the
`.index[0]` access raises), but with more than one match it raises no
"ambiguous seed" error: it silently resolves to the first matching feature in
store order, and no tie-break policy is configurable. -/
theorem C6_zero_matches_fatal_first_match_otherwise (features : List Feature)
    (target : String) :
    (features.filter (fun f => f.name == target) = [] →
      seedLookup features target = none) ∧
    (∀ g gs, features.filter (fun f => f.name == target) = g :: gs →
      seedLookup features target = some g.idx) := by
  constructor
  · intro h
    simp [seedLookup, h]
  · intro g gs h
    simp [seedLookup, h]

/-- C6 witness: on the two-match store the lookup returns the first match. -/
theorem C6_witness : seedLookup ambiguousStore "Puget Sound" = some 3 :=
  (C6_zero_matches_fatal_first_match_otherwise ambiguousStore "Puget Sound").2
    ⟨3, "Puget Sound"⟩ [⟨7, "Puget Sound"⟩] rfl

/-- C7 counterexample: with the predicate raising on the pair `(1, 0)`, the
search from seed 0 over features `{0, 1}` aborts with the re-raised error —
it does not continue with the pair treated as no-edge. -/
theorem C7_counterexample_run_aborts :
    searchE badPred [0, 1] 4 [0] ∅ =
      Except.error "intersection predicate raised" := rfl

/-- C7 amended: when the intersection predicate raises during the expansion of
a node, the worker task fails and the coordinator re-raises the exception
(`f.result()`): the search aborts with that error instead of treating the
pair as no-edge and continuing over a degraded graph. -/
theorem C7_predicate_failure_is_fatal (pred : ℕ → ℕ → Option Bool)
    (univ : List ℕ) (fuel : ℕ) (rest : List ℕ) (reached : Finset ℕ) (n : ℕ)
    (e : String) (hn : n ∉ reached)
    (hfail : find_neighbors pred univ n = Except.error e) :
    searchE pred univ (fuel + 1) (n :: rest) reached = Except.error e := by
  simp [searchE, hn, hfail]

/-- C7 witness: the fatal abort at the concrete failing pair `(1, 0)`. -/
theorem C7_witness :
    searchE badPred [0, 1] 4 [0] ∅ =
      Except.error "intersection predicate raised" :=
  C7_predicate_failure_is_fatal badPred [0, 1] 3 [] ∅ 0 _
    (Finset.not_mem_empty 0) rfl

end FollowStreams
